import Mathlib

/-!
Verification of the synchronization core of the repository: the
producer-consumer blocking queue (`src/synchronization/producer_consumer.cpp`,
`src/synchronization/producer_consumer_advanced.cpp`) and the portable
counting semaphore (`src/synchronization/semaphore_cpp20.cpp`).

All shared-state mutations in the source happen inside mutex-protected
critical sections, so an execution of the system is modelled as a sequence of
atomic operations applied to the shared state.  Each Lean definition below is
a direct transcription of one lock-protected critical section of the C++
source.
-/

/-- Which notification a critical section issues on the condition variable:
`cv.notify_one()` or `cv.notify_all()`. -/
inductive Notify where
  | one
  | all
deriving DecidableEq, Repr

/-! ## Counting semaphore (`semaphore_cpp20.cpp`, lines 29-50) -/

/-- State of the portable `CountingSemaphore`: the single field
`int count` (line 31).  The mutex and condition variable carry no
mathematical state. -/
structure CountingSemaphore where
  count : Int
deriving DecidableEq, Repr

namespace CountingSemaphore

/-- Constructor `CountingSemaphore(int initial) : count(initial) {}` (line 36):
stores `initial` unconditionally, with no validation. -/
def init (initial : Int) : CountingSemaphore := ⟨initial⟩

/-- The wait predicate of `acquire()` (lines 40-41):
`cv.wait(lock, [&]{ return count > 0; })`. -/
def acquireGuard (s : CountingSemaphore) : Bool := decide (s.count > 0)

/-- The body of `acquire()` once the wait predicate holds (line 42):
`--count`. -/
def acquire (s : CountingSemaphore) : CountingSemaphore := ⟨s.count - 1⟩

/-- `release()` (lines 44-49): `++count; cv.notify_one();`.
There is no clamp at any capacity. -/
def release (s : CountingSemaphore) : CountingSemaphore × Notify :=
  (⟨s.count + 1⟩, Notify.one)

end CountingSemaphore

/-- An atomic semaphore operation: a completed `acquire()` critical section or a
`release()` critical section. -/
inductive SemOp where
  | acq
  | rel
deriving DecidableEq, Repr

/-- Effect of one semaphore operation on the state. -/
def semApply (s : CountingSemaphore) : SemOp → CountingSemaphore
  | SemOp.acq => s.acquire
  | SemOp.rel => (s.release).1

/-- Run a sequence of semaphore operations. -/
def semRun (s : CountingSemaphore) : List SemOp → CountingSemaphore
  | [] => s
  | op :: ops => semRun (semApply s op) ops

/-- A sequence of semaphore operations is valid when every `acquire` step was
enabled: `cv.wait` only returns (and `--count` only runs) once the wait
predicate `count > 0` holds.  `release` is always enabled. -/
def semValidB (s : CountingSemaphore) : List SemOp → Bool
  | [] => true
  | SemOp.acq :: ops => s.acquireGuard && semValidB (semApply s SemOp.acq) ops
  | SemOp.rel :: ops => semValidB (semApply s SemOp.rel) ops

/-- Number of `release` operations in a sequence. -/
def countRel : List SemOp → Nat
  | [] => 0
  | SemOp.rel :: ops => countRel ops + 1
  | SemOp.acq :: ops => countRel ops

/-- Number of `acquire` operations in a sequence. -/
def countAcq : List SemOp → Nat
  | [] => 0
  | SemOp.acq :: ops => countAcq ops + 1
  | SemOp.rel :: ops => countAcq ops

/-- The count after running a sequence is the initial count plus releases minus
acquires. -/
lemma semRun_count (ops : List SemOp) :
    ∀ s : CountingSemaphore,
      (semRun s ops).count = s.count + countRel ops - countAcq ops := by
  induction ops with
  | nil => intro s; simp [semRun, countRel, countAcq]
  | cons op ops ih =>
    intro s
    cases op with
    | acq =>
      simp only [semRun, semApply, CountingSemaphore.acquire, countRel, countAcq, ih]
      push_cast
      ring
    | rel =>
      simp only [semRun, semApply, CountingSemaphore.release, countRel, countAcq, ih]
      push_cast
      ring

/-- In a valid sequence, the state just before any `acquire` step has positive
count. -/
lemma semValid_acq_pos (ops : List SemOp) :
    ∀ (s : CountingSemaphore), semValidB s ops = true →
      ∀ (i : Nat) (hi : i < ops.length), ops.get ⟨i, hi⟩ = SemOp.acq →
        0 < (semRun s (ops.take i)).count := by
  induction ops with
  | nil => intro s _ i hi; exact absurd hi (by simp)
  | cons op ops ih =>
    intro s hv i hi hacq
    cases i with
    | zero =>
      simp only [List.get] at hacq
      subst hacq
      simp only [semValidB, Bool.and_eq_true] at hv
      have hg := hv.1
      simp only [CountingSemaphore.acquireGuard, decide_eq_true_eq] at hg
      simpa [semRun, List.take] using hg
    | succ j =>
      have hj : j < ops.length := Nat.lt_of_succ_lt_succ hi
      have hacq' : ops.get ⟨j, hj⟩ = SemOp.acq := hacq
      have hv' : semValidB (semApply s op) ops = true := by
        cases op with
        | acq => simp only [semValidB, Bool.and_eq_true] at hv; exact hv.2
        | rel => simpa [semValidB] using hv
      have := ih (semApply s op) hv' j hj hacq'
      simpa [List.take, semRun] using this

/-- Valid sequences starting from a nonnegative count keep the count
nonnegative.  (Helper for the semaphore claims.) -/
lemma semValid_nonneg (ops : List SemOp) :
    ∀ (s : CountingSemaphore), semValidB s ops = true → 0 ≤ s.count →
      0 ≤ (semRun s ops).count := by
  induction ops with
  | nil => intro s _ h0; simpa [semRun] using h0
  | cons op ops ih =>
    intro s hv h0
    cases op with
    | acq =>
      simp only [semValidB, Bool.and_eq_true] at hv
      have hg : (0 : Int) < s.count := by
        have := hv.1
        simpa [CountingSemaphore.acquireGuard, decide_eq_true_eq] using this
      exact ih _ hv.2 (by simp [semApply, CountingSemaphore.acquire]; omega)
    | rel =>
      have hv' : semValidB (semApply s SemOp.rel) ops = true := by
        simpa [semValidB] using hv
      exact ih _ hv' (by simp [semApply, CountingSemaphore.release]; omega)

/-! ## Producer-consumer blocking queue
(`producer_consumer.cpp`, `producer_consumer_advanced.cpp`) -/

/-- `const int NUM_PRODUCERS = 2;` (`producer_consumer_advanced.cpp`, line 18). -/
def NUM_PRODUCERS : Nat := 2

/-- `const int NUM_CONSUMERS = 3;` (`producer_consumer_advanced.cpp`, line 19). -/
def NUM_CONSUMERS : Nat := 3

/-- `const int ITEMS_PER_PRODUCER = 5;` (`producer_consumer_advanced.cpp`, line 20). -/
def ITEMS_PER_PRODUCER : Nat := 5

/-- The shared state of the producer-consumer system: `queue<int> data_queue`
(front of the queue at the head of the list), `bool finished_producing`, and
the `static int producers_done` counter inside `producer`
(`producer_consumer_advanced.cpp`, lines 14-20 and 36). -/
structure QState where
  items : List Int
  finished : Bool
  producersDone : Nat
deriving DecidableEq, Repr

/-- The initial shared state: empty queue, `finished_producing = false`,
`producers_done = 0`. -/
def qInit : QState := ⟨[], false, 0⟩

/-- One iteration of the producer's push loop body
(`producer_consumer_advanced.cpp`, lines 27-31): under the lock,
`data_queue.push(value)` appends to the back, then `cv.notify_one()`. -/
def enqueue (s : QState) (v : Int) : QState × Notify :=
  ({ s with items := s.items ++ [v] }, Notify.one)

/-- The producer's completion block (`producer_consumer_advanced.cpp`,
lines 34-43): under the lock, `++producers_done`; if the incremented counter
equals `NUM_PRODUCERS`, set `finished_producing = true` and `cv.notify_all()`;
otherwise issue no notification. -/
def producerFinish (s : QState) : QState × Option Notify :=
  if s.producersDone + 1 = NUM_PRODUCERS then
    ({ s with producersDone := s.producersDone + 1, finished := true },
      some Notify.all)
  else
    ({ s with producersDone := s.producersDone + 1 }, none)

/-- The single-producer close block (`producer_consumer.cpp`, lines 67-70):
under the lock, `finished_producing = true`, then `cv.notify_all()`. -/
def closeOp (s : QState) : QState × Notify :=
  ({ s with finished := true }, Notify.all)

/-- The consumer's wait predicate
(`producer_consumer.cpp`, lines 84-87; `producer_consumer_advanced.cpp`,
lines 50-51): `!data_queue.empty() || finished_producing`. -/
def dequeuePred (s : QState) : Bool := !s.items.isEmpty || s.finished

/-- What one consumer loop iteration produces. -/
inductive DequeueResult where
  | item (v : Int)
  | eos
  | blocked
deriving DecidableEq, Repr

/-- One iteration of the consumer loop
(`producer_consumer.cpp`, lines 96-131; `producer_consumer_advanced.cpp`,
lines 47-64): `cv.wait(lock, pred)` suspends while the predicate is false
(`blocked`); once it holds, if the queue is non-empty the front element is
removed and returned (`data = data_queue.front(); data_queue.pop();`),
otherwise `finished_producing` must hold and the consumer breaks out of the
loop (`eos`). -/
def consumerStep (s : QState) : QState × DequeueResult :=
  if dequeuePred s then
    match s.items with
    | v :: rest => ({ s with items := rest }, DequeueResult.item v)
    | [] => (s, DequeueResult.eos)
  else
    (s, DequeueResult.blocked)

/-- An atomic operation on the shared queue state: a producer push, a
successful consumer pop of value `v`, or a producer completion block. -/
inductive QOp where
  | enq (v : Int)
  | deq (v : Int)
  | fin
deriving DecidableEq, Repr

/-- Effect of one queue operation on the shared state. -/
def qApply (s : QState) : QOp → QState
  | QOp.enq v => (enqueue s v).1
  | QOp.deq _ => { s with items := s.items.tail }
  | QOp.fin => (producerFinish s).1

/-- Run a sequence of queue operations. -/
def qRun (s : QState) : List QOp → QState
  | [] => s
  | op :: ops => qRun (qApply s op) ops

/-- A sequence of queue operations is valid when every `deq v` step really is
what the consumer code does there: `consumerStep` removes the front element
and returns it as `v`.  Pushes and completion blocks are always enabled. -/
def qValidB (s : QState) : List QOp → Bool
  | [] => true
  | QOp.deq v :: ops =>
      decide (consumerStep s = ({ s with items := s.items.tail }, DequeueResult.item v))
        && qValidB (qApply s (QOp.deq v)) ops
  | QOp.enq v :: ops => qValidB (qApply s (QOp.enq v)) ops
  | QOp.fin :: ops => qValidB (qApply s QOp.fin) ops

/-- Values pushed by a sequence of operations, in push order. -/
def enqueued : List QOp → List Int
  | [] => []
  | QOp.enq v :: ops => v :: enqueued ops
  | QOp.deq _ :: ops => enqueued ops
  | QOp.fin :: ops => enqueued ops

/-- Values popped by a sequence of operations, in pop order. -/
def dequeued : List QOp → List Int
  | [] => []
  | QOp.deq v :: ops => v :: dequeued ops
  | QOp.enq _ :: ops => dequeued ops
  | QOp.fin :: ops => dequeued ops

/-- A valid `deq v` step forces the queue to be non-empty with `v` at the
front. -/
lemma consumerStep_item_head (s : QState) (v : Int)
    (h : consumerStep s = ({ s with items := s.items.tail }, DequeueResult.item v)) :
    s.items = v :: s.items.tail := by
  cases hs : s.items with
  | nil =>
    exfalso
    rw [consumerStep] at h
    by_cases hp : dequeuePred s = true
    · rw [if_pos hp, hs] at h
      exact DequeueResult.noConfusion (congrArg Prod.snd h)
    · rw [if_neg hp] at h
      exact DequeueResult.noConfusion (congrArg Prod.snd h)
  | cons a rest =>
    have hp : dequeuePred s = true := by
      simp [dequeuePred, hs]
    rw [consumerStep, if_pos hp, hs] at h
    have : a = v := DequeueResult.item.inj (congrArg Prod.snd h)
    simp [hs, this]

/-- `producerFinish` leaves the item sequence unchanged. -/
lemma producerFinish_items (s : QState) : (producerFinish s).1.items = s.items := by
  rw [producerFinish]
  by_cases h : s.producersDone + 1 = NUM_PRODUCERS <;> simp [h]

/-- Flow invariant of the queue: at any point of a valid execution, the values
popped so far followed by the current queue contents equal the initial queue
contents followed by the values pushed so far, in order. -/
lemma items_flow (ops : List QOp) :
    ∀ (s : QState), qValidB s ops = true →
      dequeued ops ++ (qRun s ops).items = s.items ++ enqueued ops := by
  induction ops with
  | nil => intro s _; simp [dequeued, enqueued, qRun]
  | cons op ops ih =>
    intro s hv
    cases op with
    | enq v =>
      have hv' : qValidB (qApply s (QOp.enq v)) ops = true := by
        simpa [qValidB] using hv
      have := ih (qApply s (QOp.enq v)) hv'
      simp only [dequeued, enqueued, qRun]
      rw [this]
      simp [qApply, enqueue, List.append_assoc]
    | deq v =>
      simp only [qValidB, Bool.and_eq_true, decide_eq_true_eq] at hv
      have hhead := consumerStep_item_head s v hv.1
      have := ih (qApply s (QOp.deq v)) hv.2
      simp only [dequeued, enqueued, qRun, List.cons_append]
      rw [this]
      simp only [qApply]
      rw [← List.cons_append, ← hhead]
    | fin =>
      have hv' : qValidB (qApply s QOp.fin) ops = true := by
        simpa [qValidB] using hv
      have := ih (qApply s QOp.fin) hv'
      simp only [dequeued, enqueued, qRun]
      rw [this]
      simp [qApply, producerFinish_items]

/-- In a fully drained valid execution from the initial state, the popped
values are exactly the pushed values, in order. -/
lemma dequeued_eq_enqueued (ops : List QOp)
    (hv : qValidB qInit ops = true) (hdrain : (qRun qInit ops).items = []) :
    dequeued ops = enqueued ops := by
  have := items_flow ops qInit hv
  rw [hdrain] at this
  simpa [qInit] using this

/-! ## Producer completion counter and the finished flag -/

/-- `producerFinish` always increments the `producers_done` counter. -/
lemma producerFinish_done (t : QState) :
    (producerFinish t).1.producersDone = t.producersDone + 1 := by
  rw [producerFinish]
  by_cases h : t.producersDone + 1 = NUM_PRODUCERS <;> simp [h]

/-- `producerFinish` sets the finished flag exactly when the incremented
counter equals `NUM_PRODUCERS`, and never clears it. -/
lemma producerFinish_finished (t : QState) :
    (producerFinish t).1.finished
      = (t.finished || (t.producersDone + 1 == NUM_PRODUCERS)) := by
  rw [producerFinish]
  by_cases h : t.producersDone + 1 = NUM_PRODUCERS <;> simp [h]

/-- No queue operation clears the finished flag. -/
lemma qApply_finished_mono (t : QState) (op : QOp) (h : t.finished = true) :
    (qApply t op).finished = true := by
  cases op with
  | enq v => simpa [qApply, enqueue] using h
  | deq v => simpa [qApply] using h
  | fin =>
    show (producerFinish t).1.finished = true
    rw [producerFinish_finished, h, Bool.true_or]

/-- Whether one step sets the finished flag: only a producer completion block
whose incremented counter reaches `NUM_PRODUCERS` does. -/
def setsFlag (t : QState) : QOp → Bool
  | QOp.fin => t.producersDone + 1 == NUM_PRODUCERS
  | QOp.enq _ => false
  | QOp.deq _ => false

/-- Number of steps in an execution that set the finished flag. -/
def flagSets : QState → List QOp → Nat
  | _, [] => 0
  | t, op :: ops => (if setsFlag t op then 1 else 0) + flagSets (qApply t op) ops

/-- Number of producer completion blocks in a sequence. -/
def countFinish : List QOp → Nat
  | [] => 0
  | QOp.fin :: ops => countFinish ops + 1
  | QOp.enq _ :: ops => countFinish ops
  | QOp.deq _ :: ops => countFinish ops

/-- Once the counter has reached `NUM_PRODUCERS`, no later step can set the
flag again. -/
lemma flagSets_zero (ops : List QOp) :
    ∀ t : QState, NUM_PRODUCERS ≤ t.producersDone → flagSets t ops = 0 := by
  induction ops with
  | nil => intro t _; rfl
  | cons op ops ih =>
    intro t ht
    have hflag : setsFlag t op = false := by
      cases op with
      | fin => simp only [setsFlag, beq_eq_false_iff_ne, ne_eq]; omega
      | enq v => rfl
      | deq v => rfl
    have hdone : NUM_PRODUCERS ≤ (qApply t op).producersDone := by
      cases op with
      | fin =>
        rw [show qApply t QOp.fin = (producerFinish t).1 from rfl, producerFinish_done]
        omega
      | enq v => simpa [qApply, enqueue] using ht
      | deq v => simpa [qApply] using ht
    simp [flagSets, hflag, ih _ hdone]

/-- In any execution, the finished flag is set at most once. -/
lemma flagSets_le_one (ops : List QOp) :
    ∀ t : QState, flagSets t ops ≤ 1 := by
  induction ops with
  | nil => intro t; exact Nat.zero_le 1
  | cons op ops ih =>
    intro t
    cases op with
    | enq v =>
      have heq : flagSets t (QOp.enq v :: ops) = flagSets (qApply t (QOp.enq v)) ops := by
        simp [flagSets, setsFlag]
      rw [heq]; exact ih _
    | deq v =>
      have heq : flagSets t (QOp.deq v :: ops) = flagSets (qApply t (QOp.deq v)) ops := by
        simp [flagSets, setsFlag]
      rw [heq]; exact ih _
    | fin =>
      by_cases h : t.producersDone + 1 = NUM_PRODUCERS
      · have h0 : flagSets (qApply t QOp.fin) ops = 0 := by
          apply flagSets_zero
          rw [show qApply t QOp.fin = (producerFinish t).1 from rfl, producerFinish_done]
          omega
        simp [flagSets, setsFlag, h, h0]
      · have heq : flagSets t (QOp.fin :: ops) = flagSets (qApply t QOp.fin) ops := by
          simp [flagSets, setsFlag, h]
        rw [heq]; exact ih _

/-- If the counter has not yet reached `NUM_PRODUCERS` and enough producer
completion blocks remain, the finished flag is set exactly once. -/
lemma flagSets_eq_one (ops : List QOp) :
    ∀ t : QState, t.producersDone < NUM_PRODUCERS →
      NUM_PRODUCERS ≤ t.producersDone + countFinish ops →
      flagSets t ops = 1 := by
  induction ops with
  | nil =>
    intro t hlt hcnt
    exfalso
    simp only [countFinish, Nat.add_zero] at hcnt
    omega
  | cons op ops ih =>
    intro t hlt hcnt
    cases op with
    | enq v =>
      have heq : flagSets t (QOp.enq v :: ops) = flagSets (qApply t (QOp.enq v)) ops := by
        simp [flagSets, setsFlag]
      rw [heq]
      refine ih _ ?_ ?_
      · simpa [qApply, enqueue] using hlt
      · simp only [countFinish] at hcnt
        simpa [qApply, enqueue] using hcnt
    | deq v =>
      have heq : flagSets t (QOp.deq v :: ops) = flagSets (qApply t (QOp.deq v)) ops := by
        simp [flagSets, setsFlag]
      rw [heq]
      refine ih _ ?_ ?_
      · simpa [qApply] using hlt
      · simp only [countFinish] at hcnt
        simpa [qApply] using hcnt
    | fin =>
      by_cases h : t.producersDone + 1 = NUM_PRODUCERS
      · have h0 : flagSets (qApply t QOp.fin) ops = 0 := by
          apply flagSets_zero
          rw [show qApply t QOp.fin = (producerFinish t).1 from rfl, producerFinish_done]
          omega
        simp [flagSets, setsFlag, h, h0]
      · have heq : flagSets t (QOp.fin :: ops) = flagSets (qApply t QOp.fin) ops := by
          simp [flagSets, setsFlag, h]
        rw [heq]
        refine ih _ ?_ ?_
        · rw [show qApply t QOp.fin = (producerFinish t).1 from rfl, producerFinish_done]
          omega
        · rw [show qApply t QOp.fin = (producerFinish t).1 from rfl, producerFinish_done]
          simp only [countFinish] at hcnt
          omega

/-! ## The condition-variable wait loop -/

/-- `cv.wait(lock, pred)` is by definition the loop
`while (!pred()) wait(lock);`: given the sequence of shared states observed at
successive (possibly spurious) wakeups, it returns the first state at which
the predicate holds, and keeps waiting (`none`) if none arrives. -/
def cvWaitLoop {α : Type} (pred : α → Bool) : List α → Option α
  | [] => none
  | s :: rest => if pred s then some s else cvWaitLoop pred rest

/-- When the wait loop returns, the awaited predicate holds at the returned
state. -/
lemma cvWaitLoop_pred {α : Type} (pred : α → Bool) (l : List α) (x : α)
    (h : cvWaitLoop pred l = some x) : pred x = true := by
  induction l with
  | nil => exact Option.noConfusion h
  | cons a rest ih =>
    rw [cvWaitLoop] at h
    by_cases hp : pred a = true
    · rw [if_pos hp] at h
      cases h
      exact hp
    · rw [if_neg hp] at h
      exact ih h

/-! ## The two-producer, three-consumer demonstration harness -/

/-- Values pushed by producer `id`: `int value = id * 100 + i;` for
`i = 0, ..., ITEMS_PER_PRODUCER - 1` (`producer_consumer_advanced.cpp`,
lines 24-28). -/
def producerValues (id : Nat) : List Int :=
  (List.range ITEMS_PER_PRODUCER).map (fun i => (id : Int) * 100 + (i : Int))

/-- Producer ids spawned by `main`:
`producers.emplace_back(producer, i + 1)` for `i < NUM_PRODUCERS`
(`producer_consumer_advanced.cpp`, lines 71-72), i.e. ids 1 and 2. -/
def harnessIds : List Nat := (List.range NUM_PRODUCERS).map (fun i => i + 1)

/-- All values enqueued by the demonstration's producers. -/
def harnessEnqueues : List Int := (harnessIds.map producerValues).flatten

/-- Operation sequence of one sequential run of the demonstration harness:
all producer pushes followed by all consumer pops. -/
def harnessDemoOps : List QOp :=
  harnessEnqueues.map QOp.enq ++ harnessEnqueues.map QOp.deq

/-! ## Claims -/

/-- Claim C1: the claim says the permit count never exceeds the capacity N
fixed at construction, excessive `release()` calls beyond N being rejected or
clamped.  The code violates this: for the source's own `CountingSemaphore
sem(3)`, a single valid `release()` with no matching acquire drives the count
to 4 > 3, because `release()` increments unconditionally (line 47). -/
theorem C1_release_exceeds_capacity :
    semValidB (CountingSemaphore.init 3) [SemOp.rel] = true ∧
    (semRun (CountingSemaphore.init 3) [SemOp.rel]).count = 4 ∧
    ¬(semRun (CountingSemaphore.init 3) [SemOp.rel]).count ≤ 3 := by
  decide

/-- Claim C2: no loss and no duplication — in every valid interleaved
execution from the initial state that drains the queue, the popped values are
exactly the pushed values: equal as sequences, hence equally many pops as
pushes and equal multisets (each pushed item returned exactly once). -/
theorem C2_no_loss_no_duplication (ops : List QOp)
    (hv : qValidB qInit ops = true) (hdrain : (qRun qInit ops).items = []) :
    dequeued ops = enqueued ops ∧
    (dequeued ops).length = (enqueued ops).length ∧
    (dequeued ops : Multiset Int) = (enqueued ops : Multiset Int) := by
  have h := dequeued_eq_enqueued ops hv hdrain
  exact ⟨h, by rw [h], by rw [h]⟩

/-- Witness for C2 at a concrete execution. -/
theorem C2_no_loss_no_duplication_witness :
    dequeued [QOp.enq 7, QOp.enq 8, QOp.deq 7, QOp.deq 8]
        = enqueued [QOp.enq 7, QOp.enq 8, QOp.deq 7, QOp.deq 8] ∧
    (dequeued [QOp.enq 7, QOp.enq 8, QOp.deq 7, QOp.deq 8]).length
        = (enqueued [QOp.enq 7, QOp.enq 8, QOp.deq 7, QOp.deq 8]).length ∧
    (dequeued [QOp.enq 7, QOp.enq 8, QOp.deq 7, QOp.deq 8] : Multiset Int)
        = (enqueued [QOp.enq 7, QOp.enq 8, QOp.deq 7, QOp.deq 8] : Multiset Int) :=
  C2_no_loss_no_duplication [QOp.enq 7, QOp.enq 8, QOp.deq 7, QOp.deq 8]
    (by decide) (by decide)

/-- Claim C3: `dequeue()` on a non-empty queue removes and returns the front
element; and in every valid execution the popped values, restricted to any
producer's items (any filter `P`), followed by that producer's items still
queued, equal that producer's items in push order — FIFO per producer. -/
theorem C3_fifo_per_producer (s : QState) (v : Int) (rest : List Int)
    (hs : s.items = v :: rest)
    (ops : List QOp) (hv : qValidB qInit ops = true) (P : Int → Bool) :
    consumerStep s = ({ s with items := rest }, DequeueResult.item v) ∧
    (dequeued ops).filter P ++ ((qRun qInit ops).items).filter P
      = (enqueued ops).filter P := by
  constructor
  · simp [consumerStep, dequeuePred, hs]
  · have h := items_flow ops qInit hv
    have h2 := congrArg (List.filter P) h
    simp only [List.filter_append] at h2
    simpa [qInit] using h2

/-- Witness for C3 at a concrete state, execution and filter. -/
theorem C3_fifo_per_producer_witness :
    consumerStep ⟨[5, 6], false, 0⟩ = (⟨[6], false, 0⟩, DequeueResult.item 5) ∧
    (dequeued [QOp.enq 1, QOp.enq 2, QOp.deq 1]).filter (fun w => decide (0 < w)) ++
      ((qRun qInit [QOp.enq 1, QOp.enq 2, QOp.deq 1]).items).filter (fun w => decide (0 < w))
      = (enqueued [QOp.enq 1, QOp.enq 2, QOp.deq 1]).filter (fun w => decide (0 < w)) :=
  C3_fifo_per_producer ⟨[5, 6], false, 0⟩ 5 [6] rfl
    [QOp.enq 1, QOp.enq 2, QOp.deq 1] (by decide) (fun w => decide (0 < w))

/-- Claim C4: when the queue is closed (finished flag set) and empty, the
consumer iteration returns the end-of-stream signal as a normal result, not a
block and not an error; in particular, after closing an empty never-used
queue, a waiting consumer gets end-of-stream. -/
theorem C4_eos_on_closed_empty (s : QState)
    (he : s.items = []) (hf : s.finished = true) :
    (consumerStep s).2 = DequeueResult.eos ∧
    (consumerStep (closeOp qInit).1).2 = DequeueResult.eos := by
  refine ⟨?_, by decide⟩
  simp [consumerStep, dequeuePred, he, hf]

/-- Witness for C4 at a concrete closed empty state. -/
theorem C4_eos_on_closed_empty_witness :
    (consumerStep ⟨[], true, 1⟩).2 = DequeueResult.eos ∧
    (consumerStep (closeOp qInit).1).2 = DequeueResult.eos :=
  C4_eos_on_closed_empty ⟨[], true, 1⟩ rfl rfl

/-- Claim C5: every push appends the item at the back and issues
`notify_one`; the close operation sets the finished flag and issues
`notify_all` — and the last producer's completion block likewise sets the
flag and issues `notify_all`. -/
theorem C5_notify_one_vs_all (s : QState) (v : Int)
    (hlast : s.producersDone + 1 = NUM_PRODUCERS) :
    (enqueue s v).1.items = s.items ++ [v] ∧
    (enqueue s v).2 = Notify.one ∧
    (closeOp s).1.finished = true ∧
    (closeOp s).2 = Notify.all ∧
    (producerFinish s).1.finished = true ∧
    (producerFinish s).2 = some Notify.all := by
  refine ⟨rfl, rfl, rfl, rfl, ?_, ?_⟩ <;> simp [producerFinish, hlast]

/-- Witness for C5 at a concrete state where the last producer finishes. -/
theorem C5_notify_one_vs_all_witness :
    (enqueue ⟨[4], false, 1⟩ 9).1.items = [4] ++ [9] ∧
    (enqueue ⟨[4], false, 1⟩ 9).2 = Notify.one ∧
    (closeOp ⟨[4], false, 1⟩).1.finished = true ∧
    (closeOp ⟨[4], false, 1⟩).2 = Notify.all ∧
    (producerFinish ⟨[4], false, 1⟩).1.finished = true ∧
    (producerFinish ⟨[4], false, 1⟩).2 = some Notify.all :=
  C5_notify_one_vs_all ⟨[4], false, 1⟩ 9 (by decide)

/-- Claim C6: a completed `acquire()` decrements the count by exactly one and
only runs when the count is positive (validity), so from a nonnegative
initial count the count never becomes negative in any valid sequence of
acquires and releases. -/
theorem C6_no_negative_permits (s : CountingSemaphore) (ops : List SemOp)
    (hv : semValidB s ops = true) (h0 : 0 ≤ s.count) :
    s.acquire.count = s.count - 1 ∧ 0 ≤ (semRun s ops).count :=
  ⟨rfl, semValid_nonneg ops s hv h0⟩

/-- Witness for C6 at a concrete semaphore and operation sequence. -/
theorem C6_no_negative_permits_witness :
    (CountingSemaphore.mk 2).acquire.count = (CountingSemaphore.mk 2).count - 1 ∧
    0 ≤ (semRun (CountingSemaphore.mk 2) [SemOp.acq, SemOp.rel, SemOp.acq]).count :=
  C6_no_negative_permits (CountingSemaphore.mk 2) [SemOp.acq, SemOp.rel, SemOp.acq]
    (by decide) (by decide)

/-- Claim C7: the finished flag is monotone — no step of any execution clears
it; in any execution it is set at most once; in an execution where the
producers-done counter has not yet reached `NUM_PRODUCERS` and enough
producer completion blocks occur, it is set exactly once; and the only step
that sets it is the completion block whose incremented counter reaches
`NUM_PRODUCERS`. -/
theorem C7_finished_monotone_set_once (t : QState) (op : QOp)
    (hf : t.finished = true)
    (s : QState) (ops : List QOp)
    (hlt : s.producersDone < NUM_PRODUCERS)
    (hcnt : NUM_PRODUCERS ≤ s.producersDone + countFinish ops)
    (u : QState) (ops2 : List QOp) :
    (qApply t op).finished = true ∧
    flagSets u ops2 ≤ 1 ∧
    flagSets s ops = 1 ∧
    setsFlag u QOp.fin = (u.producersDone + 1 == NUM_PRODUCERS) :=
  ⟨qApply_finished_mono t op hf, flagSets_le_one ops2 u,
    flagSets_eq_one ops s hlt hcnt, rfl⟩

/-- Witness for C7 at concrete states and executions. -/
theorem C7_finished_monotone_set_once_witness :
    (qApply ⟨[], true, 0⟩ (QOp.enq 1)).finished = true ∧
    flagSets qInit [QOp.fin, QOp.fin, QOp.fin] ≤ 1 ∧
    flagSets qInit [QOp.fin, QOp.fin] = 1 ∧
    setsFlag qInit QOp.fin = (qInit.producersDone + 1 == NUM_PRODUCERS) :=
  C7_finished_monotone_set_once ⟨[], true, 0⟩ (QOp.enq 1) rfl
    qInit [QOp.fin, QOp.fin] (by decide) (by decide)
    qInit [QOp.fin, QOp.fin, QOp.fin]

/-- Claim C8: the blocking waits in both the consumer (`dequeue`) and
`acquire()` are predicate loops (`cv.wait(lock, pred)` re-checks `pred` after
every wake): whenever the wait returns a state — however many spurious
wakeups preceded it — the awaited predicate holds there: the queue is
non-empty or closed, respectively the count is positive. -/
theorem C8_wait_rechecks_predicate (wakesQ : List QState)
    (wakesS : List CountingSemaphore) (s : QState) (t : CountingSemaphore)
    (hq : cvWaitLoop dequeuePred wakesQ = some s)
    (ht : cvWaitLoop CountingSemaphore.acquireGuard wakesS = some t) :
    dequeuePred s = true ∧ 0 < t.count := by
  refine ⟨cvWaitLoop_pred _ _ _ hq, ?_⟩
  have h := cvWaitLoop_pred _ _ _ ht
  simpa [CountingSemaphore.acquireGuard, decide_eq_true_eq] using h

/-- Witness for C8 with spurious wakeups before the predicate holds. -/
theorem C8_wait_rechecks_predicate_witness :
    dequeuePred ⟨[3], false, 0⟩ = true ∧ 0 < (CountingSemaphore.mk 2).count :=
  C8_wait_rechecks_predicate
    [⟨[], false, 0⟩, ⟨[3], false, 0⟩] [⟨0⟩, ⟨2⟩]
    ⟨[3], false, 0⟩ (CountingSemaphore.mk 2) (by decide) (by decide)

/-- Counterexample to claim C9 as stated: in the demonstration `main`, the
producers are spawned with ids `i + 1`, i.e. 1 and 2, so the enqueued values
are `id * 100 + i` = {100..104} and {200..204} — not {0..4} and {100..104}:
the value 0 is never enqueued, while 200 is. -/
theorem C9_values_counterexample :
    harnessEnqueues ≠ [0, 1, 2, 3, 4, 100, 101, 102, 103, 104] ∧
    (0 : Int) ∉ harnessEnqueues ∧
    (200 : Int) ∈ harnessEnqueues ∧
    harnessEnqueues = [100, 101, 102, 103, 104, 200, 201, 202, 203, 204] := by
  decide

/-- Claim C9 (amended): in the two-producer, three-consumer demonstration the
two producers (ids 1 and 2) enqueue the values {100..104} and {200..204}; in
every valid drained execution whose pushes are those values, the consumed
values are exactly {100,...,104,200,...,204}, with no repeats. -/
theorem C9_harness_union (ops : List QOp)
    (hv : qValidB qInit ops = true)
    (henq : List.Perm (enqueued ops) harnessEnqueues)
    (hdrain : (qRun qInit ops).items = []) :
    List.Perm (dequeued ops) [100, 101, 102, 103, 104, 200, 201, 202, 203, 204] ∧
    (dequeued ops).Nodup := by
  have h := dequeued_eq_enqueued ops hv hdrain
  have hset : harnessEnqueues
      = [100, 101, 102, 103, 104, 200, 201, 202, 203, 204] := by decide
  have hperm : List.Perm (dequeued ops)
      [100, 101, 102, 103, 104, 200, 201, 202, 203, 204] := by
    rw [h, ← hset]
    exact henq
  refine ⟨hperm, ?_⟩
  have hnd : ([100, 101, 102, 103, 104, 200, 201, 202, 203, 204]
      : List Int).Nodup := by decide
  exact hperm.nodup_iff.mpr hnd

/-- Witness for the amended C9 at a concrete sequential execution of the
harness. -/
theorem C9_harness_union_witness :
    List.Perm (dequeued harnessDemoOps)
      [100, 101, 102, 103, 104, 200, 201, 202, 203, 204] ∧
    (dequeued harnessDemoOps).Nodup :=
  C9_harness_union harnessDemoOps (by decide) (by decide) (by decide)

/-- Claim C10: the constructor stores any initial count `n ≤ 0` unchanged,
with no validation and no error; the `acquire()` wait guard `count > 0` is
then false, and in any valid operation sequence an `acquire()` can only have
completed after at least `1 - n` `release()` calls — misuse shows up as
blocking, never as a negative permit count caused by `acquire`. -/
theorem C10_nonpositive_init_blocks (n : Int) (hn : n ≤ 0) (ops : List SemOp)
    (hv : semValidB (CountingSemaphore.init n) ops = true)
    (i : Nat) (hi : i < ops.length) (hacq : ops.get ⟨i, hi⟩ = SemOp.acq) :
    (CountingSemaphore.init n).count = n ∧
    CountingSemaphore.acquireGuard (CountingSemaphore.init n) = false ∧
    1 - n ≤ (countRel (ops.take i) : Int) := by
  refine ⟨rfl, ?_, ?_⟩
  · simp only [CountingSemaphore.acquireGuard, CountingSemaphore.init,
      decide_eq_false_iff_not, not_lt]
    exact hn
  · have hpos := semValid_acq_pos ops (CountingSemaphore.init n) hv i hi hacq
    rw [semRun_count] at hpos
    have hceq : (CountingSemaphore.init n).count = n := rfl
    rw [hceq] at hpos
    have hca : (0 : Int) ≤ (countAcq (ops.take i) : Int) := Int.natCast_nonneg _
    omega

/-- Witness for C10: a semaphore constructed with count -1; its third
operation is an acquire, preceded by two releases. -/
theorem C10_nonpositive_init_blocks_witness :
    (CountingSemaphore.init (-1)).count = -1 ∧
    CountingSemaphore.acquireGuard (CountingSemaphore.init (-1)) = false ∧
    (1 : Int) - (-1) ≤ (countRel ([SemOp.rel, SemOp.rel, SemOp.acq].take 2) : Int) :=
  C10_nonpositive_init_blocks (-1) (by decide) [SemOp.rel, SemOp.rel, SemOp.acq]
    (by decide) 2 (by decide) (by decide)
